import Mathlib

/-!
Verification of the governance-proposal mirror (1inch governance transactions
viewer). The definitions below are a shallow embedding of the JavaScript
sources under `src/js/`:

* `reality.js` — question-state record and `computeProposalStatus`;
* `app.js`    — `computeClaimableAnswers`, `buildClaimArrays`;
* `indexer.js`— `getLogsChunked`, `indexAnswersInRange`,
  `updateIndexedRangeSettings`, `backfillProposalsRange`,
  `fetchNewProposals`, `estimateBlockFromTime`;
* `execute.js`— `verifyTxBundle`;
* `db.js` / `contracts.js` — the keyed object stores (`dbPut` upsert).

Conventions of the embedding:

* JavaScript numbers that hold block numbers, timestamps or counts are `Nat`;
  signed arithmetic (timestamp differences) is `Int`.
* On-chain `uint256` / `BigInt` amounts that the code keeps as decimal strings
  are kept as `String` here, with `decNat` playing the role of `BigInt(s)`.
* Asynchronous RPC calls that can fail are `Except String _`; the IndexedDB
  side effects are threaded explicitly through a `DbState` record, so a thrown
  exception is modelled as `(state-at-throw-time, Except.error msg)`.
* `Date.now() / 1000` is an explicit `now : Nat` argument.
* Display-only strings built with locale-dependent APIs
  (`Date.toLocaleString`) are omitted; all other reason strings are modelled.
-/

/-- `BigInt(s)` on the canonical decimal strings the app stores
(`bond.toString()` etc.). -/
def decNat (s : String) : Nat :=
  s.data.foldl (fun n c => n * 10 + (c.toNat - 48)) 0

/-- `s.toLowerCase()` on the ASCII hex strings / addresses the app compares. -/
def jsToLower (s : String) : String :=
  String.mk (s.data.map Char.toLower)

/-- `ethers.ZeroHash`. -/
def zeroHash : String :=
  "0x0000000000000000000000000000000000000000000000000000000000000000"

/-- `ANSWER_YES` from `config.js`. -/
def ANSWER_YES : String :=
  "0x0000000000000000000000000000000000000000000000000000000000000001"

/-- `LOG_CHUNK_SIZE` from `config.js` (blocks per `getLogs` request). -/
def LOG_CHUNK_SIZE : Nat := 5000

/-- The fields of the Reality.eth question state loaded by
`loadQuestionState` (`reality.js`) that the status / claim computations
read; presentation-only fields (`contentHash`, `arbitrator`, `openingTs`,
`timeout`, `bounty`, `minBond`) are not consulted by the functions verified
here and are omitted. -/
structure QuestionState where
  questionId : String
  bestAnswer : String
  bond : String
  finalizeTs : Nat
  isFinalized : Bool
  finalAnswer : Option String
  isPendingArbitration : Bool
  historyHash : String
deriving DecidableEq

/-- The module configuration loaded by `loadModuleConfig` (`reality.js`);
`minimumBond` is kept as a decimal string (`minBond.toString()`). -/
structure ModuleConfig where
  questionCooldown : Nat
  answerExpiration : Nat
  minimumBond : String
deriving DecidableEq

/-- The record returned by `computeProposalStatus`. -/
structure ProposalStatus where
  label : String
  executable : Bool
  reason : String
deriving DecidableEq

/-- `formatDuration` (`reality.js`): seconds rendered as `#d #h #m #s`. -/
def formatDuration (seconds : Int) : String :=
  if seconds ≤ 0 then "now"
  else
    let s := seconds.toNat
    let d := s / 86400
    let h := s % 86400 / 3600
    let m := s % 3600 / 60
    let sec := s % 60
    let parts :=
      (if 0 < d then [toString d ++ "d"] else []) ++
      (if 0 < h then [toString h ++ "h"] else []) ++
      (if 0 < m then [toString m ++ "m"] else []) ++
      (if 0 < sec ∧ d = 0 then [toString sec ++ "s"] else [])
    if parts.isEmpty then "0s" else String.intercalate " " parts

/-- `ethers.formatEther` on a decimal wei string: integer part, a dot and the
18 fractional digits with trailing zeros trimmed (at least one digit kept). -/
def formatEther (wei : String) : String :=
  let v := decNat wei
  let whole := v / 10 ^ 18
  let fracDigits := toString (v % 10 ^ 18)
  let padded := String.mk (List.replicate (18 - fracDigits.length) '0') ++ fracDigits
  let trimmed := String.mk (padded.data.reverse.dropWhile (· = '0')).reverse
  toString whole ++ "." ++ (if trimmed = "" then "0" else trimmed)

/-- `jsOrStr a b` models the JavaScript expression `a || b` on a nullable
string `a` (`null` and the empty string are falsy). -/
def jsOrStr : Option String → String → String
  | none, b => b
  | some a, b => if a = "" then b else a

/-- `computeProposalStatus` (`reality.js` lines 81-172). The JavaScript
function reads `Date.now()` internally; the evaluation time is the explicit
`now` argument here. -/
def computeProposalStatus (questionState : Option QuestionState)
    (cfg : ModuleConfig) (now : Nat) : ProposalStatus :=
  match questionState with
  | none => { label := "unknown", executable := false, reason := "No question state" }
  | some qs =>
    -- const hasAnswer = bond !== "0" && bestAnswer !== zeroHash
    let hasAnswer : Bool := qs.bond != "0" && qs.bestAnswer != zeroHash
    if qs.isPendingArbitration then
      { label := "arbitration", executable := false, reason := "Pending arbitration" }
    else if !qs.isFinalized then
      if !hasAnswer then
        { label := "pending", executable := false, reason := "No answers yet" }
      else if 0 < qs.finalizeTs ∧ now < qs.finalizeTs then
        { label := "pending", executable := false
        , reason := "Best answer set, finalizes in " ++
            formatDuration ((qs.finalizeTs : Int) - (now : Int)) }
      else
        { label := "pending", executable := false
        , reason := "Best answer set, awaiting finalization call" }
    else
      let answer := jsOrStr qs.finalAnswer qs.bestAnswer
      let isYes : Bool := answer == ANSWER_YES ||
        answer == "0x0000000000000000000000000000000000000000000000000000000000000001"
      if !isYes then
        { label := "finalized", executable := false, reason := "Final answer is NO" }
      else if decNat qs.bond < decNat cfg.minimumBond then
        { label := "finalized", executable := false
        , reason := "Bond " ++ formatEther qs.bond ++ " < min " ++
            formatEther cfg.minimumBond }
      else if 0 < cfg.questionCooldown ∧ now < qs.finalizeTs + cfg.questionCooldown then
        { label := "finalized", executable := false
        , reason := "Cooldown: " ++
            formatDuration ((qs.finalizeTs + cfg.questionCooldown : Int) - (now : Int)) ++
            " remaining" }
      else if 0 < cfg.answerExpiration ∧ qs.finalizeTs + cfg.answerExpiration < now then
        { label := "finalized", executable := false, reason := "Answer has expired" }
      else
        { label := "executable", executable := true, reason := "Ready to execute" }

/-- A decoded `LogNewAnswer` event log: raw log position fields
(`blockNumber`, `transactionIndex`, `log.index`) plus the parsed event
arguments (`indexer.js` lines 233-247). The embedding works on logs whose
parse succeeded; a malformed log is skipped by the source (`catch {}`),
contributing nothing to the fold. -/
structure Log where
  blockNumber : Nat
  transactionIndex : Nat
  logIndex : Nat
  questionId : String
  answer : String
  historyHash : String
  user : String
  bond : Nat
  ts : Nat
  isCommitment : Bool
deriving DecidableEq

/-- An `AnswerEvent` record as written to the `answers` store
(`indexer.js` lines 237-248): `id` is the composite key
`questionId:blockNumber:transactionIndex:logIndex` (see `contracts.js`
`openDB`, key path `id`). -/
structure Answer where
  id : String
  questionId : String
  answer : String
  historyHash : String
  user : String
  bond : String
  ts : Nat
  isCommitment : Bool
  blockNumber : Nat
  logIndex : Nat
deriving DecidableEq, Inhabited

/-- Building one `answers`-store record from a parsed log
(`indexAnswersInRange`, `indexer.js` lines 236-248). -/
def answerFromLog (log : Log) : Answer :=
  { id := log.questionId ++ ":" ++ toString log.blockNumber ++ ":" ++
      toString log.transactionIndex ++ ":" ++ toString log.logIndex
  , questionId := log.questionId
  , answer := log.answer
  , historyHash := log.historyHash
  , user := log.user
  , bond := toString log.bond
  , ts := log.ts
  , isCommitment := log.isCommitment
  , blockNumber := log.blockNumber
  , logIndex := log.logIndex }

/-- One row of the result of `computeClaimableAnswers` (`app.js` lines
1459-1469). The `reason` field of the source is a display string built with
`Date.toLocaleString` (locale-dependent) and is not modelled; `claimable`
carries the decision. -/
structure ClaimEntry where
  index : Nat
  answer : String
  bond : String
  ts : Nat
  historyHash : String
  user : String
  claimable : Bool
  isLastAnswer : Bool
deriving DecidableEq

/-- The body of the `for` loop of `computeClaimableAnswers` (`app.js` lines
1429-1470): `i` is the loop index, `len` the length of the full history. -/
def claimLoop (len : Nat) (isFinalized : Bool) (finalizeTs : Nat)
    (isPendingArbitration : Bool) (now : Nat) (userLower : String) :
    Nat → List Answer → List ClaimEntry
  | _, [] => []
  | i, entry :: rest =>
    if jsToLower entry.user ≠ userLower then
      claimLoop len isFinalized finalizeTs isPendingArbitration now userLower (i + 1) rest
    else
      let isLastAnswer : Bool := i == len - 1
      let wasOutbid : Bool := decide (i < len - 1)
      let finalizable : Bool := isFinalized || (decide (0 < finalizeTs) && decide (finalizeTs ≤ now))
      let claimable : Bool :=
        if isPendingArbitration then false
        else if wasOutbid then finalizable
        else if isLastAnswer then finalizable
        else false
      { index := i, answer := entry.answer, bond := entry.bond, ts := entry.ts
      , historyHash := entry.historyHash, user := entry.user
      , claimable := claimable, isLastAnswer := isLastAnswer } ::
        claimLoop len isFinalized finalizeTs isPendingArbitration now userLower (i + 1) rest

/-- `computeClaimableAnswers` (`app.js` lines 1417-1473). `Date.now()` is the
explicit `now` argument. -/
def computeClaimableAnswers (answerHistory : List Answer)
    (questionState : Option QuestionState) (userAddress : String) (now : Nat) :
    List ClaimEntry :=
  if answerHistory.isEmpty then []
  else if userAddress = "" then []
  else
    let userLower := jsToLower userAddress
    -- questionState?.isFinalized || false, ?.finalizeTs || 0, ?.isPendingArbitration || false
    let isFinalized := match questionState with | some qs => qs.isFinalized | none => false
    let finalizeTs := match questionState with | some qs => qs.finalizeTs | none => 0
    let isPendingArbitration :=
      match questionState with | some qs => qs.isPendingArbitration | none => false
    claimLoop answerHistory.length isFinalized finalizeTs isPendingArbitration now
      userLower 0 answerHistory

/-- `estimateClaimableAmount` (`app.js` lines 1475-1481). -/
def estimateClaimableAmount (claimableAnswers : List ClaimEntry) : Nat :=
  claimableAnswers.foldl (fun total a => if a.claimable then total + decNat a.bond else total) 0

/-- The four parallel arrays returned by `buildClaimArrays`. -/
structure ClaimArrays where
  historyHashes : List String
  addrs : List String
  bonds : List Nat
  answers : List String
deriving DecidableEq

/-- `buildClaimArrays` (`app.js` lines 1487-1496): reverse a copy of the
chronological history and project the four parallel arrays (`bonds` through
`BigInt`). -/
def buildClaimArrays (answerHistory : List Answer) : ClaimArrays :=
  let reversed := answerHistory.reverse
  { historyHashes := reversed.map (·.historyHash)
  , addrs := reversed.map (·.user)
  , bonds := reversed.map (fun a => decNat a.bond)
  , answers := reversed.map (·.answer) }

/-- Heap-level rendering of `buildClaimArrays` making the JavaScript array
mutation visible: the heap is a list of arrays, a reference is an index,
`[...answerHistory]` allocates a fresh copy at the end of the heap and
`.reverse()` mutates the referenced array in place. The function returns the
heap after the call together with the result record. -/
def buildClaimArraysH (heap : List (List Answer)) (histRef : Nat) :
    List (List Answer) × ClaimArrays :=
  let copy := heap.getD histRef []
  let heap1 := heap ++ [copy]
  let copyRef := heap.length
  let heap2 := heap1.set copyRef (heap1.getD copyRef []).reverse
  let reversed := heap2.getD copyRef []
  (heap2,
    { historyHashes := reversed.map (·.historyHash)
    , addrs := reversed.map (·.user)
    , bonds := reversed.map (fun a => decNat a.bond)
    , answers := reversed.map (·.answer) })

/-- A proposal record as decoded by `decodeProposalFromLog`
(`indexer.js` lines 130-179). -/
structure Proposal where
  questionId : String
  proposalId : String
  txHashes : List String
  questionText : String
  createdBlock : Nat
  createdTxHash : String
  createdTimestamp : Nat
deriving DecidableEq

/-- The read side of the RPC provider used by the indexer. `getLogs` and
`getBlockNumber` are retried calls whose exhaustion throws (`Except.error`).
`decodeProposal` stands for `decodeProposalFromLog`: every `await` inside it
sits in a `try`/`catch` (`indexer.js` lines 139-168) and the surrounding
per-item `catch` in `scanProposalsInRange` (lines 201-211) swallows the rest,
so a decode never propagates an error; `none` is a skipped item. -/
structure Provider where
  getLogs : Nat → Nat → Except String (List Log)
  getBlockNumber : Except String Nat
  decodeProposal : Log → Option Proposal

/-- The slice of IndexedDB the indexer mutates: the two watermark settings
(`settings` store) plus the `proposals` and `answers` object stores. -/
structure DbState where
  earliestIndexedBlock : Option Nat
  lastProcessedBlock : Option Nat
  proposals : List Proposal
  answers : List Answer
deriving DecidableEq

/-- The `while (current <= toBlock)` loop of `getLogsChunked`
(`indexer.js` lines 108-121): fetch `[current, min(current+CHUNK-1, toBlock)]`,
recurse past it, concatenate in order. Progress reporting is display-only and
not modelled. The loop advances `current` by at least one block per
iteration, so it is rendered as structural recursion on a fuel bound that the
caller sets to the range's span (the loop stops by itself once
`current > toBlock`; the fuel never runs out first). -/
def chunkLoop (getLogs : Nat → Nat → Except String (List Log)) :
    Nat → Nat → Nat → Except String (List Log)
  | 0, _, _ => .ok []
  | fuel + 1, toBlock, current =>
    if current ≤ toBlock then
      let e := min (current + LOG_CHUNK_SIZE - 1) toBlock
      match getLogs current e with
      | .error err => .error err
      | .ok logs =>
        match chunkLoop getLogs fuel toBlock (e + 1) with
        | .error err => .error err
        | .ok rest => .ok (logs ++ rest)
    else .ok []

/-- `getLogsChunked` (`indexer.js` lines 101-124). -/
def getLogsChunked (getLogs : Nat → Nat → Except String (List Log))
    (fromBlock toBlock : Nat) : Except String (List Log) :=
  if toBlock < fromBlock then .ok []
  else chunkLoop getLogs (toBlock + 1 - fromBlock) toBlock fromBlock

/-- IndexedDB `put` on the `answers` store (key path `id`): replace the
record with the same key or insert. -/
def dbPutAnswer (store : List Answer) (a : Answer) : List Answer :=
  if store.any (fun x => x.id == a.id) then
    store.map (fun x => if x.id == a.id then a else x)
  else store ++ [a]

/-- IndexedDB `put` on the `proposals` store (key path `questionId`). -/
def dbPutProposal (store : List Proposal) (p : Proposal) : List Proposal :=
  if store.any (fun x => x.questionId == p.questionId) then
    store.map (fun x => if x.questionId == p.questionId then p else x)
  else store ++ [p]

/-- `indexAnswersInRange` (`indexer.js` lines 217-258): chunked scan of
`LogNewAnswer` logs over `[fromBlock, toBlock]`, then one `dbPut` per parsed
log. Returns the state at the time of a failure (no write happens after the
failing fetch) and, on success, the parsed count. -/
def indexAnswersInRange (p : Provider) (st : DbState) (fromBlock toBlock : Nat) :
    DbState × Except String Nat :=
  if toBlock < fromBlock then (st, .ok 0)
  else
    match getLogsChunked p.getLogs fromBlock toBlock with
    | .error err => (st, .error err)
    | .ok logs =>
      ({ st with answers := logs.foldl (fun s log => dbPutAnswer s (answerFromLog log)) st.answers }
      , .ok logs.length)

/-- `scanProposalsInRange` (`indexer.js` lines 181-215): chunked scan of
`ProposalQuestionCreated` logs, then per log decode + `dbPut`; a failed
decode is caught and skipped. -/
def scanProposalsInRange (p : Provider) (st : DbState) (fromBlock toBlock : Nat) :
    DbState × Except String (List Proposal) :=
  if toBlock < fromBlock then (st, .ok [])
  else
    match getLogsChunked p.getLogs fromBlock toBlock with
    | .error err => (st, .error err)
    | .ok logs =>
      let step := fun (acc : DbState × List Proposal) (log : Log) =>
        match p.decodeProposal log with
        | none => acc
        | some prop =>
          ({ acc.1 with proposals := dbPutProposal acc.1.proposals prop }, acc.2 ++ [prop])
      let res := logs.foldl step (st, [])
      (res.1, .ok res.2)

/-- `updateIndexedRangeSettings` (`indexer.js` lines 267-277). -/
def updateIndexedRangeSettings (st : DbState) (fromBlock toBlock : Nat) : DbState :=
  let st1 :=
    match st.earliestIndexedBlock with
    | none => { st with earliestIndexedBlock := some fromBlock }
    | some earliest => { st with earliestIndexedBlock := some (min earliest fromBlock) }
  let lastProcessed := st1.lastProcessedBlock.getD 0
  { st1 with lastProcessedBlock := some (max lastProcessed toBlock) }

/-- `backfillProposalsRange` (`indexer.js` lines 293-303): proposal scan,
then answer indexing, then — only after both succeeded — the watermark
update. -/
def backfillProposalsRange (p : Provider) (st : DbState) (fromBlock toBlock : Nat) :
    DbState × Except String (List Proposal) :=
  if toBlock < fromBlock then (st, .ok [])
  else
    match scanProposalsInRange p st fromBlock toBlock with
    | (st1, .error err) => (st1, .error err)
    | (st1, .ok proposals) =>
      match indexAnswersInRange p st1 fromBlock toBlock with
      | (st2, .error err) => (st2, .error err)
      | (st2, .ok _) => (updateIndexedRangeSettings st2 fromBlock toBlock, .ok proposals)

/-- `fetchNewProposals` (`indexer.js` lines 308-320). -/
def fetchNewProposals (p : Provider) (st : DbState) :
    DbState × Except String (List Proposal) :=
  let lastBlock := st.lastProcessedBlock.getD 0
  match p.getBlockNumber with
  | .error err => (st, .error err)
  | .ok latestBlock =>
    if latestBlock ≤ lastBlock then (st, .ok [])
    else
      match scanProposalsInRange p st (lastBlock + 1) latestBlock with
      | (st1, .error err) => (st1, .error err)
      | (st1, .ok newProposals) =>
        match indexAnswersInRange p st1 (lastBlock + 1) latestBlock with
        | (st2, .error err) => (st2, .error err)
        | (st2, .ok _) =>
          (updateIndexedRangeSettings st2 (lastBlock + 1) latestBlock, .ok newProposals)

/-- The bounded binary-search loop of `estimateBlockFromTime`
(`indexer.js` lines 81-94): at most `fuel` iterations (15 in the source);
`getBlock` returns the block timestamp or `none` for a null lookup, which
narrows the search (`lo = mid + 1`) instead of failing. -/
def searchLoop (getBlock : Nat → Option Nat) (targetTs : Int) :
    Nat → Nat → Nat → Nat
  | 0, lo, _ => lo
  | fuel + 1, lo, hi =>
    if hi ≤ lo then lo
    else
      let mid := (lo + hi) / 2
      match getBlock mid with
      | none => searchLoop getBlock targetTs fuel (mid + 1) hi
      | some blockTs =>
        if (blockTs : Int) < targetTs then searchLoop getBlock targetTs fuel (mid + 1) hi
        else searchLoop getBlock targetTs fuel lo mid

/-- The coarse lower bound of the search (`indexer.js` lines 76-77):
`Math.max(0, latest.number - 2 * Math.ceil(secondsAgo / 12))`
(truncated subtraction on `Nat`). -/
def estStartLo (latestNumber secondsAgo : Nat) : Nat :=
  latestNumber - ((secondsAgo + 11) / 12) * 2

/-- The target timestamp `latest.timestamp - secondsAgo` (`indexer.js`
line 73), as a signed value. -/
def estTargetTs (latestTs secondsAgo : Nat) : Int :=
  (latestTs : Int) - (secondsAgo : Int)

/-- `estimateBlockFromTime` (`indexer.js` lines 71-96). The latest block
(number and timestamp) fetched at line 72 is passed in explicitly. -/
def estimateBlockFromTime (getBlock : Nat → Option Nat)
    (latestNumber latestTs secondsAgo : Nat) : Nat :=
  searchLoop getBlock (estTargetTs latestTs secondsAgo) 15
    (estStartLo latestNumber secondsAgo) latestNumber

/-- A user-imported transaction bundle; `verifyTxBundle` reads only the
derived commitment hashes. -/
structure TxBundle where
  proposalId : String
  txHashes : List String
deriving DecidableEq

/-- Result record of `verifyTxBundle`. -/
structure VerifyResult where
  valid : Bool
  reason : String
deriving DecidableEq

/-- The index loop of `verifyTxBundle` (`execute.js` lines 74-81), walking the
two hash lists in step; it runs only after the length check, so the unequal
tail cases are unreachable there (mapped to an invalid result). -/
def verifyHashLoop : Nat → List String → List String → VerifyResult
  | _, [], _ => { valid := true, reason := "All hashes match" }
  | _, _ :: _, [] => { valid := false, reason := "" }
  | i, b :: bs, p :: ps =>
    if jsToLower b ≠ jsToLower p then
      { valid := false
      , reason := "Hash mismatch at index " ++ toString i ++ ": bundle=" ++ b ++
          ", proposal=" ++ p }
    else verifyHashLoop (i + 1) bs ps

/-- `verifyTxBundle` (`execute.js` lines 66-84). -/
def verifyTxBundle (bundle : TxBundle) (proposalTxHashes : List String) : VerifyResult :=
  if bundle.txHashes.length ≠ proposalTxHashes.length then
    { valid := false
    , reason := "Hash count mismatch: bundle has " ++ toString bundle.txHashes.length ++
        ", proposal has " ++ toString proposalTxHashes.length }
  else verifyHashLoop 0 bundle.txHashes proposalTxHashes

/-- Block-range membership test used to state what an ideal `eth_getLogs`
provider returns for `[fromBlock, toBlock]`. -/
def inRange (fromBlock toBlock : Nat) (g : Log) : Bool :=
  decide (fromBlock ≤ g.blockNumber) && decide (g.blockNumber ≤ toBlock)

/-- The chain's append-only log list is ordered by block number. -/
def sortedByBlock (L : List Log) : Prop :=
  L.Pairwise (fun a b => a.blockNumber ≤ b.blockNumber)

/-- An exact provider for a chain log list `L`: any sub-range query returns
precisely the logs of that sub-range, in chain order. -/
def exactProvider (getLogs : Nat → Nat → Except String (List Log)) (L : List Log) : Prop :=
  ∀ fromBlock toBlock, getLogs fromBlock toBlock = .ok (L.filter (inRange fromBlock toBlock))

/-- Fixture: a question state pending arbitration. -/
def qsArbitration : QuestionState :=
  { questionId := "0xq", bestAnswer := ANSWER_YES, bond := "10", finalizeTs := 5
  , isFinalized := true, finalAnswer := some ANSWER_YES
  , isPendingArbitration := true, historyHash := "0xh" }

/-- Fixture: a question whose `finalizeTs` has passed but whose on-chain
finalization has not happened (`isFinalized = false`). -/
def qsPastFinalizeTs : QuestionState :=
  { questionId := "0xq", bestAnswer := ANSWER_YES, bond := "10", finalizeTs := 5
  , isFinalized := false, finalAnswer := none
  , isPendingArbitration := false, historyHash := "0xh" }

/-- Fixture: a question with a best answer whose `finalizeTs` lies in the
future. -/
def qsBeforeFinalizeTs : QuestionState :=
  { questionId := "0xq", bestAnswer := ANSWER_YES, bond := "10", finalizeTs := 50
  , isFinalized := false, finalAnswer := none
  , isPendingArbitration := false, historyHash := "0xh" }

/-- Fixture: a single history entry by user `0xAA`. -/
def answerByAA : Answer :=
  { id := "0xq:1:0:0", questionId := "0xq", answer := ANSWER_YES
  , historyHash := "0xh", user := "0xAA", bond := "10", ts := 1
  , isCommitment := false, blockNumber := 1, logIndex := 0 }

/-- Fixture: a second history entry by user `0xBB` outbidding the first. -/
def answerByBB : Answer :=
  { id := "0xq:2:0:0", questionId := "0xq", answer := ANSWER_YES
  , historyHash := "0xh2", user := "0xBB", bond := "20", ts := 2
  , isCommitment := false, blockNumber := 2, logIndex := 0 }

/-- Fixture: a module configuration. -/
def wConfig : ModuleConfig :=
  { questionCooldown := 0, answerExpiration := 0, minimumBond := "0" }

/-- Fixture: a two-event chain log list in block order. -/
def wChainLogs : List Log :=
  [ { blockNumber := 3, transactionIndex := 0, logIndex := 1, questionId := "0xq"
    , answer := ANSWER_YES, historyHash := "0xh", user := "0xAA", bond := 10
    , ts := 100, isCommitment := false }
  , { blockNumber := 5200, transactionIndex := 1, logIndex := 0, questionId := "0xq"
    , answer := ANSWER_YES, historyHash := "0xh2", user := "0xBB", bond := 20
    , ts := 200, isCommitment := false } ]

/-- Fixture: the exact provider over `wChainLogs`. -/
def wGetLogs : Nat → Nat → Except String (List Log) :=
  fun fromBlock toBlock => .ok (wChainLogs.filter (inRange fromBlock toBlock))

/-- Fixture: a full provider over `wChainLogs` that decodes no proposals. -/
def wProvider : Provider :=
  { getLogs := wGetLogs, getBlockNumber := .ok 100, decodeProposal := fun _ => none }

/-- Fixture: a provider whose log fetches always fail (retries exhausted). -/
def failProvider : Provider :=
  { getLogs := fun _ _ => .error "RPC exhausted"
  , getBlockNumber := .ok 100
  , decodeProposal := fun _ => none }

/-- Fixture: a database state with an established watermark. -/
def wDbState : DbState :=
  { earliestIndexedBlock := some 50, lastProcessedBlock := some 70
  , proposals := [], answers := [] }

/-- Fixture: the fresh database state before any indexing. -/
def emptyDbState : DbState :=
  { earliestIndexedBlock := none, lastProcessedBlock := none
  , proposals := [], answers := [] }

/-- Fixture: a 12-second-block chain for the block estimator (block `i` has
timestamp `12 * i`; every lookup succeeds). -/
def wGetBlock : Nat → Option Nat :=
  fun i => some (12 * i)

/-- Fixture: a monotone chain on which the 15-iteration search cannot
converge — 65537 blocks in the initial range, only the head block reaching
the target timestamp. -/
def cexGetBlock : Nat → Option Nat :=
  fun i => some (if i < 65536 then i else 500000)

/-- Fixture: a bundle whose hashes disagree with the proposal commitments at
index 1 (and only there). -/
def wBundle : TxBundle :=
  { proposalId := "prop-1", txHashes := ["0xAA11", "0xBB22", "0xCC33"] }

/-- Fixture: on-chain commitment hashes for `wBundle`'s proposal. -/
def wProposalHashes : List String :=
  ["0xaa11", "0xdd44", "0xcc33"]

/-! ## Theorems -/

/-- C1: `computeProposalStatus` is deterministic in `(QuestionState,
moduleConfig, now)`; a pending arbitration always yields label
`"arbitration"` with `executable = false` whatever the other fields hold;
and `executable = true` only ever occurs on a finalized state. -/
theorem computeProposalStatus_correct (qState : Option QuestionState)
    (qs : QuestionState) (cfg : ModuleConfig) (now : Nat) :
    computeProposalStatus qState cfg now = computeProposalStatus qState cfg now ∧
    (qs.isPendingArbitration = true →
      (computeProposalStatus (some qs) cfg now).label = "arbitration" ∧
      (computeProposalStatus (some qs) cfg now).executable = false) ∧
    ((computeProposalStatus (some qs) cfg now).executable = true →
      qs.isFinalized = true) := by
  refine ⟨rfl, ?_, ?_⟩
  · intro harb
    simp [computeProposalStatus, harb]
  · intro hexec
    cases hfin : qs.isFinalized with
    | true => rfl
    | false =>
      exfalso
      revert hexec
      simp only [computeProposalStatus, hfin]
      split_ifs <;> simp_all

/-- C1 witness: at a concrete arbitration-pending state the theorem's second
part applies and yields the arbitration label. -/
theorem computeProposalStatus_correct_witness :
    (computeProposalStatus (some qsArbitration) wConfig 10).label = "arbitration" ∧
    (computeProposalStatus (some qsArbitration) wConfig 10).executable = false :=
  (computeProposalStatus_correct (some qsArbitration) qsArbitration wConfig 10).2.1 rfl

/-- Every entry the claim loop emits while the question is pending
arbitration carries `claimable = false`. -/
theorem claimLoop_pending_not_claimable (len : Nat) (isFinalized : Bool)
    (finalizeTs now : Nat) (userLower : String) :
    ∀ (l : List Answer) (i : Nat),
      (claimLoop len isFinalized finalizeTs true now userLower i l).all
        (fun c => !c.claimable) = true
  | [], _ => rfl
  | entry :: rest, i => by
    simp only [claimLoop]
    split_ifs
    · exact claimLoop_pending_not_claimable len isFinalized finalizeTs now userLower rest (i + 1)
    · simp only [List.all_cons, Bool.and_eq_true]
      exact ⟨rfl, claimLoop_pending_not_claimable len isFinalized finalizeTs now userLower rest (i + 1)⟩

/-- Every entry the claim loop emits while the question is neither finalized
nor past a positive `finalizeTs` carries `claimable = false`. -/
theorem claimLoop_not_finalizable_not_claimable (len finalizeTs now : Nat)
    (isPendingArbitration : Bool) (userLower : String)
    (hts : finalizeTs = 0 ∨ now < finalizeTs) :
    ∀ (l : List Answer) (i : Nat),
      (claimLoop len false finalizeTs isPendingArbitration now userLower i l).all
        (fun c => !c.claimable) = true
  | [], _ => rfl
  | entry :: rest, i => by
    have ih := claimLoop_not_finalizable_not_claimable len finalizeTs now
      isPendingArbitration userLower hts rest (i + 1)
    have hfin : (false || (decide (0 < finalizeTs) && decide (finalizeTs ≤ now))) = false := by
      rcases hts with h | h
      · simp [h]
      · have hn : ¬ (finalizeTs ≤ now) := Nat.not_le.mpr h
        simp [hn]
    simp only [claimLoop]
    split_ifs <;> first
      | exact ih
      | (simp only [List.all_cons, Bool.and_eq_true]
         refine ⟨?_, ih⟩
         simp [hfin])

/-- C2 (amended): an arbitration-pending question yields no claimable entry;
and while the question is not finalized and its `finalizeTs` has not yet been
reached (`finalizeTs = 0` or `now < finalizeTs`), no entry — in particular no
never-outbid last entry — is claimable. -/
theorem computeClaimableAnswers_correct (answerHistory : List Answer)
    (qs : QuestionState) (userAddress : String) (now : Nat) :
    (qs.isPendingArbitration = true →
      (computeClaimableAnswers answerHistory (some qs) userAddress now).all
        (fun c => !c.claimable) = true) ∧
    (qs.isFinalized = false → (qs.finalizeTs = 0 ∨ now < qs.finalizeTs) →
      (computeClaimableAnswers answerHistory (some qs) userAddress now).all
        (fun c => !c.isLastAnswer || !c.claimable) = true) := by
  constructor
  · intro harb
    simp only [computeClaimableAnswers, harb]
    split_ifs <;> first
      | rfl
      | exact claimLoop_pending_not_claimable answerHistory.length qs.isFinalized
          qs.finalizeTs now (jsToLower userAddress) answerHistory 0
  · intro hfin hts
    have hall : (computeClaimableAnswers answerHistory (some qs) userAddress now).all
        (fun c => !c.claimable) = true := by
      simp only [computeClaimableAnswers, hfin]
      split_ifs <;> first
        | rfl
        | exact claimLoop_not_finalizable_not_claimable answerHistory.length
            qs.finalizeTs now qs.isPendingArbitration (jsToLower userAddress) hts
            answerHistory 0
    rw [List.all_eq_true] at hall ⊢
    intro c hc
    simp [hall c hc]

/-- C2 counterexample: with a single never-outbid answer by the user and a
question whose `finalizeTs` (5) has passed at `now = 10` but which is not
finalized, `computeClaimableAnswers` marks the last entry claimable — the
claim as stated ("never claimable while not yet finalized") is false on the
code. -/
theorem computeClaimableAnswers_counterexample :
    qsPastFinalizeTs.isFinalized = false ∧
    qsPastFinalizeTs.isPendingArbitration = false ∧
    (computeClaimableAnswers [answerByAA] (some qsPastFinalizeTs) "0xAA" 10).map
      (fun c => (c.isLastAnswer, c.claimable)) = [(true, true)] := by
  refine ⟨rfl, rfl, ?_⟩
  decide

/-- C2 witness: both parts of the amended theorem applied at concrete
inputs — an arbitration-pending question, and a question whose `finalizeTs`
(50) is still in the future at `now = 10`. -/
theorem computeClaimableAnswers_correct_witness :
    ((computeClaimableAnswers [answerByAA, answerByBB] (some qsArbitration) "0xAA" 10).all
      (fun c => !c.claimable) = true) ∧
    ((computeClaimableAnswers [answerByAA] (some qsBeforeFinalizeTs) "0xAA" 10).all
      (fun c => !c.isLastAnswer || !c.claimable) = true) :=
  ⟨(computeClaimableAnswers_correct [answerByAA, answerByBB] qsArbitration "0xAA" 10).1 rfl
  , (computeClaimableAnswers_correct [answerByAA] qsBeforeFinalizeTs "0xAA" 10).2 rfl
      (Or.inr (by decide))⟩

/-- Reading position `i` of a mapped reversal of `l` reads position
`l.length - 1 - i` of `l`. -/
theorem getElem_bang_map_reverse {α β : Type} [Inhabited α] [Inhabited β]
    (f : α → β) (l : List α) (i : Nat) (hi : i < l.length) :
    (l.reverse.map f)[i]! = f l[l.length - 1 - i]! := by
  have h1 : i < (l.reverse.map f).length := by simpa using hi
  have h2 : i < l.reverse.length := by simpa using hi
  have h3 : l.length - 1 - i < l.length := by omega
  rw [getElem!_pos (l.reverse.map f) i h1, getElem!_pos l _ h3,
    List.getElem_map, List.getElem_reverse]

/-- C3: `buildClaimArrays` emits four arrays of the input's length, and
position `i` of each output is the projection of input position
`length - 1 - i` — the exact reverse of chronological order. -/
theorem buildClaimArrays_correct (answerHistory : List Answer) (i : Nat)
    (hi : i < answerHistory.length) :
    ((buildClaimArrays answerHistory).historyHashes.length = answerHistory.length ∧
     (buildClaimArrays answerHistory).addrs.length = answerHistory.length ∧
     (buildClaimArrays answerHistory).bonds.length = answerHistory.length ∧
     (buildClaimArrays answerHistory).answers.length = answerHistory.length) ∧
    ((buildClaimArrays answerHistory).historyHashes[i]! =
       answerHistory[answerHistory.length - 1 - i]!.historyHash ∧
     (buildClaimArrays answerHistory).addrs[i]! =
       answerHistory[answerHistory.length - 1 - i]!.user ∧
     (buildClaimArrays answerHistory).bonds[i]! =
       decNat answerHistory[answerHistory.length - 1 - i]!.bond ∧
     (buildClaimArrays answerHistory).answers[i]! =
       answerHistory[answerHistory.length - 1 - i]!.answer) := by
  refine ⟨⟨by simp [buildClaimArrays], by simp [buildClaimArrays],
    by simp [buildClaimArrays], by simp [buildClaimArrays]⟩, ?_, ?_, ?_, ?_⟩
  · exact getElem_bang_map_reverse (fun a => a.historyHash) answerHistory i hi
  · exact getElem_bang_map_reverse (fun a => a.user) answerHistory i hi
  · exact getElem_bang_map_reverse (fun a => decNat a.bond) answerHistory i hi
  · exact getElem_bang_map_reverse (fun a => a.answer) answerHistory i hi

/-- C3 witness: on the two-entry history, output position 0 is input
position 1 (the newest answer first). -/
theorem buildClaimArrays_correct_witness :
    (buildClaimArrays [answerByAA, answerByBB]).historyHashes.length = 2 ∧
    (buildClaimArrays [answerByAA, answerByBB]).addrs[0]! =
      ([answerByAA, answerByBB] : List Answer)[2 - 1 - 0]!.user :=
  ⟨(buildClaimArrays_correct [answerByAA, answerByBB] 0 (by decide)).1.1
  , (buildClaimArrays_correct [answerByAA, answerByBB] 0 (by decide)).2.2.1⟩

/-- C10: `buildClaimArrays` does not mutate the caller's array — in the
heap-level rendering, where `.reverse()` is an in-place mutation of its
receiver and `[...answerHistory]` allocates a fresh copy, the input array is
bit-identical after the call, and the returned record is the pure
`buildClaimArrays` of the input. -/
theorem buildClaimArraysH_frame (heap : List (List Answer)) (histRef : Nat)
    (hr : histRef < heap.length) :
    (buildClaimArraysH heap histRef).1.getD histRef [] = heap.getD histRef [] ∧
    (buildClaimArraysH heap histRef).2 = buildClaimArrays (heap.getD histRef []) := by
  have hne : heap.length ≠ histRef := by omega
  have hcopy : (heap ++ [heap.getD histRef []]).getD heap.length [] = heap.getD histRef [] := by
    rw [List.getD_eq_getElem?_getD, List.getD_eq_getElem?_getD]
    simp
  have hlen : heap.length < (heap ++ [heap.getD histRef []]).length := by
    simp
  have hself : ((heap ++ [heap.getD histRef []]).set heap.length
      (heap.getD histRef []).reverse).getD heap.length [] =
      (heap.getD histRef []).reverse := by
    rw [List.getD_eq_getElem?_getD, List.getElem?_set_eq_of_lt _ hlen]
    rfl
  constructor
  · simp only [buildClaimArraysH, hcopy]
    rw [List.getD_eq_getElem?_getD, List.getElem?_set_ne hne,
      List.getElem?_append_left hr, List.getD_eq_getElem?_getD]
  · simp only [buildClaimArraysH, buildClaimArrays, hcopy, hself]

/-- C10 witness: a concrete two-array heap is unchanged at the history
reference after the call. -/
theorem buildClaimArraysH_frame_witness :
    (buildClaimArraysH [[answerByAA, answerByBB], []] 0).1.getD 0 [] =
      [answerByAA, answerByBB] :=
  (buildClaimArraysH_frame [[answerByAA, answerByBB], []] 0 (by decide)).1

/-- C7: `updateIndexedRangeSettings` stores exactly
`min(previous earliest | fromBlock, fromBlock)` and
`max(previous last | 0, toBlock)`, so the lower watermark never increases and
the upper watermark never decreases. -/
theorem updateIndexedRangeSettings_correct (st : DbState) (fromBlock toBlock : Nat) :
    ((updateIndexedRangeSettings st fromBlock toBlock).earliestIndexedBlock =
      some (match st.earliestIndexedBlock with
            | none => fromBlock
            | some earliest => min earliest fromBlock)) ∧
    ((updateIndexedRangeSettings st fromBlock toBlock).lastProcessedBlock =
      some (max (st.lastProcessedBlock.getD 0) toBlock)) ∧
    (∀ e, st.earliestIndexedBlock = some e →
      (updateIndexedRangeSettings st fromBlock toBlock).earliestIndexedBlock.getD 0 ≤ e) ∧
    (∀ l, st.lastProcessedBlock = some l →
      l ≤ (updateIndexedRangeSettings st fromBlock toBlock).lastProcessedBlock.getD 0) := by
  refine ⟨?_, ?_, ?_, ?_⟩
  · cases h : st.earliestIndexedBlock <;> simp [updateIndexedRangeSettings, h]
  · cases h : st.earliestIndexedBlock <;> simp [updateIndexedRangeSettings, h]
  · intro e he
    cases h : st.earliestIndexedBlock with
    | none => rw [he] at h; cases h
    | some x =>
      rw [he] at h
      cases h
      simp [updateIndexedRangeSettings, he]
  · intro l hl
    cases h : st.earliestIndexedBlock <;>
      simp [updateIndexedRangeSettings, h, hl]

/-- C7 witness: from `(earliest, last) = (50, 70)`, updating with range
`[40, 90]` keeps the earliest at most 50 and the last at least 70. -/
theorem updateIndexedRangeSettings_correct_witness :
    (updateIndexedRangeSettings wDbState 40 90).earliestIndexedBlock.getD 0 ≤ 50 ∧
    70 ≤ (updateIndexedRangeSettings wDbState 40 90).lastProcessedBlock.getD 0 :=
  ⟨(updateIndexedRangeSettings_correct wDbState 40 90).2.2.1 50 rfl
  , (updateIndexedRangeSettings_correct wDbState 40 90).2.2.2 70 rfl⟩

/-- The hash loop accepts (with the fixed success record) exactly when every
position matches case-insensitively, for equal-length lists. -/
theorem verifyHashLoop_valid_iff :
    ∀ (i : Nat) (bs ps : List String), bs.length = ps.length →
      ((verifyHashLoop i bs ps).valid = true ↔
        ∀ k, k < bs.length → jsToLower bs[k]! = jsToLower ps[k]!)
  | _, [], [] => by
    intro _
    simp [verifyHashLoop]
  | _, [], _ :: _ => by intro h; cases h
  | _, _ :: _, [] => by intro h; cases h
  | i, b :: bs, p :: ps => by
    intro hlen
    have ih := verifyHashLoop_valid_iff (i + 1) bs ps (by simpa using hlen)
    simp only [verifyHashLoop]
    split_ifs with hm
    · constructor
      · intro h; simp at h
      · intro hall
        exact absurd (by simpa [getElem!_def] using hall 0 (by simp)) hm
    · rw [ih]
      constructor
      · intro hall k hk
        cases k with
        | zero => simpa [getElem!_def] using not_not.mp (by simpa using hm)
        | succ k => simpa [getElem!_def] using hall k (by simpa using hk)
      · intro hall k hk
        have := hall (k + 1) (by simpa using hk)
        simpa [getElem!_def] using this

/-- The hash loop reports the first mismatching position: if position `k` is
the lowest mismatch, the result is invalid and names index `i + k` and the
two hashes. -/
theorem verifyHashLoop_first_mismatch :
    ∀ (i k : Nat) (bs ps : List String), bs.length = ps.length → k < bs.length →
      jsToLower bs[k]! ≠ jsToLower ps[k]! →
      (∀ j, j < k → jsToLower bs[j]! = jsToLower ps[j]!) →
      verifyHashLoop i bs ps =
        { valid := false
        , reason := "Hash mismatch at index " ++ toString (i + k) ++ ": bundle=" ++
            bs[k]! ++ ", proposal=" ++ ps[k]! }
  | _, _, [], [] => by intro _ hk; cases hk
  | _, _, [], _ :: _ => by intro h; cases h
  | _, _, _ :: _, [] => by intro h; cases h
  | i, 0, b :: bs, p :: ps => by
    intro _ _ hm _
    simp only [verifyHashLoop]
    rw [if_pos (by simpa [getElem!_def] using hm)]
    simp [getElem!_def]
  | i, k + 1, b :: bs, p :: ps => by
    intro hlen hk hm hfirst
    have hhead : jsToLower b = jsToLower p := by
      simpa [getElem!_def] using hfirst 0 (Nat.succ_pos k)
    have ih := verifyHashLoop_first_mismatch (i + 1) k bs ps (by simpa using hlen)
      (by simpa using hk) (by simpa [getElem!_def] using hm)
      (fun j hj => by simpa [getElem!_def] using hfirst (j + 1) (by simpa using hj))
    simp only [verifyHashLoop]
    rw [if_neg (by simp [hhead])]
    rw [ih]
    have : i + 1 + k = i + (k + 1) := by omega
    simp [this, getElem!_def]

/-- C9: `verifyTxBundle` rejects a length mismatch naming both counts;
rejects a value mismatch naming the lowest mismatching index and both hashes
(case-insensitive comparison); and accepts exactly when the lengths agree and
every position matches — never coercing a mismatch to success. -/
theorem verifyTxBundle_correct (bundle : TxBundle) (proposalTxHashes : List String) :
    (bundle.txHashes.length ≠ proposalTxHashes.length →
      verifyTxBundle bundle proposalTxHashes =
        { valid := false
        , reason := "Hash count mismatch: bundle has " ++ toString bundle.txHashes.length ++
            ", proposal has " ++ toString proposalTxHashes.length }) ∧
    (∀ k, bundle.txHashes.length = proposalTxHashes.length → k < bundle.txHashes.length →
      jsToLower bundle.txHashes[k]! ≠ jsToLower proposalTxHashes[k]! →
      (∀ j, j < k → jsToLower bundle.txHashes[j]! = jsToLower proposalTxHashes[j]!) →
      verifyTxBundle bundle proposalTxHashes =
        { valid := false
        , reason := "Hash mismatch at index " ++ toString k ++ ": bundle=" ++
            bundle.txHashes[k]! ++ ", proposal=" ++ proposalTxHashes[k]! }) ∧
    ((verifyTxBundle bundle proposalTxHashes).valid = true ↔
      (bundle.txHashes.length = proposalTxHashes.length ∧
        ∀ k, k < bundle.txHashes.length →
          jsToLower bundle.txHashes[k]! = jsToLower proposalTxHashes[k]!)) := by
  refine ⟨?_, ?_, ?_⟩
  · intro hne
    simp [verifyTxBundle, hne]
  · intro k hlen hk hm hfirst
    have := verifyHashLoop_first_mismatch 0 k bundle.txHashes proposalTxHashes hlen hk hm hfirst
    simp only [verifyTxBundle, if_neg (by omega : ¬ bundle.txHashes.length ≠ proposalTxHashes.length)]
    simpa using this
  · by_cases hlen : bundle.txHashes.length = proposalTxHashes.length
    · simp only [verifyTxBundle, if_neg (by omega : ¬ bundle.txHashes.length ≠ proposalTxHashes.length)]
      rw [verifyHashLoop_valid_iff 0 bundle.txHashes proposalTxHashes hlen]
      constructor
      · intro h; exact ⟨hlen, h⟩
      · intro h; exact h.2
    · simp [verifyTxBundle, hlen]

/-- C9 witness: on the concrete bundle the lowest mismatch (index 1) is
named, and the bundle is not accepted. -/
theorem verifyTxBundle_correct_witness :
    verifyTxBundle wBundle wProposalHashes =
      { valid := false
      , reason := "Hash mismatch at index " ++ toString 1 ++ ": bundle=" ++
          wBundle.txHashes[1]! ++ ", proposal=" ++ wProposalHashes[1]! } :=
  (verifyTxBundle_correct wBundle wProposalHashes).2.1 1 rfl (by decide)
    (by decide) (fun j hj => by interval_cases j; decide)

/-- An empty block range selects no logs. -/
theorem filter_inRange_empty (L : List Log) (fromBlock toBlock : Nat)
    (h : toBlock < fromBlock) : L.filter (inRange fromBlock toBlock) = [] := by
  apply List.filter_eq_nil_iff.mpr
  intro g _
  simp only [inRange, Bool.and_eq_true, decide_eq_true_eq, not_and]
  omega

/-- Filtering a block-sorted log list over the adjacent ranges `[c, e]` and
`[e+1, t]` and concatenating the results equals filtering once over `[c, t]`. -/
theorem filter_inRange_split (c e t : Nat) (hce : c ≤ e) (het : e ≤ t) :
    ∀ L : List Log, sortedByBlock L →
      L.filter (inRange c e) ++ L.filter (inRange (e + 1) t) =
        L.filter (inRange c t)
  | [], _ => rfl
  | g :: L, hs => by
    have hall := (List.pairwise_cons.mp hs).1
    have htail := (List.pairwise_cons.mp hs).2
    have ih := filter_inRange_split c e t hce het L htail
    by_cases h1 : g.blockNumber < c
    · have e1 : ¬ inRange c e g = true := by simp only [inRange]; simp; omega
      have e2 : ¬ inRange (e + 1) t g = true := by simp only [inRange]; simp; omega
      have e3 : ¬ inRange c t g = true := by simp only [inRange]; simp; omega
      rw [List.filter_cons_of_neg e1, List.filter_cons_of_neg e2,
        List.filter_cons_of_neg e3]
      exact ih
    · by_cases h2 : g.blockNumber ≤ e
      · have e1 : inRange c e g = true := by simp only [inRange]; simp; omega
        have e2 : ¬ inRange (e + 1) t g = true := by simp only [inRange]; simp; omega
        have e3 : inRange c t g = true := by simp only [inRange]; simp; omega
        rw [List.filter_cons_of_pos e1, List.filter_cons_of_neg e2,
          List.filter_cons_of_pos e3, List.cons_append, ih]
      · by_cases h3 : g.blockNumber ≤ t
        · have e1 : ¬ inRange c e g = true := by simp only [inRange]; simp; omega
          have e2 : inRange (e + 1) t g = true := by simp only [inRange]; simp; omega
          have e3 : inRange c t g = true := by simp only [inRange]; simp; omega
          have hnil : L.filter (inRange c e) = [] := by
            apply List.filter_eq_nil_iff.mpr
            intro x hx
            have hge := hall x hx
            simp only [inRange, Bool.and_eq_true, decide_eq_true_eq, not_and]
            omega
          rw [List.filter_cons_of_neg e1, List.filter_cons_of_pos e2,
            List.filter_cons_of_pos e3, hnil, List.nil_append]
          have h4 := ih
          rw [hnil, List.nil_append] at h4
          rw [h4]
        · have e1 : ¬ inRange c e g = true := by simp only [inRange]; simp; omega
          have e2 : ¬ inRange (e + 1) t g = true := by simp only [inRange]; simp; omega
          have e3 : ¬ inRange c t g = true := by simp only [inRange]; simp; omega
          rw [List.filter_cons_of_neg e1, List.filter_cons_of_neg e2,
            List.filter_cons_of_neg e3]
          exact ih

/-- Against an exact provider over a sorted log list, the chunk loop from
`current` produces exactly the logs of `[current, toBlock]`. -/
theorem chunkLoop_exact (getLogs : Nat → Nat → Except String (List Log))
    (L : List Log) (hL : exactProvider getLogs L) (hs : sortedByBlock L) :
    ∀ (n toBlock current : Nat), toBlock + 1 - current ≤ n →
      chunkLoop getLogs n toBlock current = .ok (L.filter (inRange current toBlock)) := by
  intro n
  induction n with
  | zero =>
    intro toBlock current h
    rw [chunkLoop, filter_inRange_empty L current toBlock (by omega)]
  | succ n ihn =>
    intro toBlock current h
    by_cases hc : current ≤ toBlock
    · have hL2 := hL
      simp only [exactProvider] at hL2
      have he : current ≤ min (current + LOG_CHUNK_SIZE - 1) toBlock := by
        simp only [LOG_CHUNK_SIZE]; omega
      have het : min (current + LOG_CHUNK_SIZE - 1) toBlock ≤ toBlock :=
        Nat.min_le_right _ _
      have hrec := ihn toBlock (min (current + LOG_CHUNK_SIZE - 1) toBlock + 1)
        (by simp only [LOG_CHUNK_SIZE]; omega)
      rw [chunkLoop]
      simp only [if_pos hc, hL2, hrec]
      rw [filter_inRange_split current (min (current + LOG_CHUNK_SIZE - 1) toBlock)
        toBlock he het L hs]
    · rw [chunkLoop, if_neg hc, filter_inRange_empty L current toBlock (by omega)]

/-- Against an exact provider over a sorted log list, `getLogsChunked`
returns exactly the logs of the whole range. -/
theorem getLogsChunked_exact (getLogs : Nat → Nat → Except String (List Log))
    (L : List Log) (hL : exactProvider getLogs L) (hs : sortedByBlock L)
    (fromBlock toBlock : Nat) :
    getLogsChunked getLogs fromBlock toBlock =
      .ok (L.filter (inRange fromBlock toBlock)) := by
  by_cases hlt : toBlock < fromBlock
  · rw [getLogsChunked, if_pos hlt, filter_inRange_empty L fromBlock toBlock hlt]
  · rw [getLogsChunked, if_neg hlt]
    exact chunkLoop_exact getLogs L hL hs (toBlock + 1 - fromBlock) toBlock fromBlock
      (Nat.le_refl _)

/-- C4: chunking is observationally transparent — for a provider that
returns, for any sub-range, exactly the logs of that sub-range in block
order, the sequential fixed-size chunked scan equals the one-shot fetch over
the whole range. -/
theorem getLogsChunked_transparent (getLogs : Nat → Nat → Except String (List Log))
    (L : List Log) (hs : sortedByBlock L) (hL : exactProvider getLogs L)
    (fromBlock toBlock : Nat) :
    getLogsChunked getLogs fromBlock toBlock = getLogs fromBlock toBlock := by
  rw [getLogsChunked_exact getLogs L hL hs fromBlock toBlock, hL]

/-- C4 witness: over the concrete two-log chain the chunked scan of
`[0, 12000]` (three chunks of 5000 blocks) equals the one-shot fetch. -/
theorem getLogsChunked_transparent_witness :
    getLogsChunked wGetLogs 0 12000 = wGetLogs 0 12000 :=
  getLogsChunked_transparent wGetLogs wChainLogs (by unfold sortedByBlock; decide)
    (fun _ _ => rfl) 0 12000

/-- In a store with duplicate-free keys, two members with the same key are
the same record. -/
theorem eq_of_mem_pairwise_id :
    ∀ (store : List Answer), store.Pairwise (fun x y => x.id ≠ y.id) →
      ∀ (a x : Answer), a ∈ store → x ∈ store → x.id = a.id → x = a
  | [], _, a, x, ha, _, _ => absurd ha (List.not_mem_nil a)
  | hd :: tl, h, a, x, ha, hx, hid => by
    have hhd := (List.pairwise_cons.mp h).1
    have htl := (List.pairwise_cons.mp h).2
    rcases List.mem_cons.mp ha with rfl | ha2
    · rcases List.mem_cons.mp hx with rfl | hx2
      · rfl
      · exact absurd hid.symm (hhd x hx2)
    · rcases List.mem_cons.mp hx with rfl | hx2
      · exact absurd hid (hhd a ha2)
      · exact eq_of_mem_pairwise_id tl htl a x ha2 hx2 hid

/-- `dbPut` keeps the store's key set duplicate-free. -/
theorem dbPutAnswer_pairwise (store : List Answer) (a : Answer)
    (h : store.Pairwise (fun x y => x.id ≠ y.id)) :
    (dbPutAnswer store a).Pairwise (fun x y => x.id ≠ y.id) := by
  unfold dbPutAnswer
  split_ifs with hany
  · have hfid : ∀ x : Answer, ((fun x => if x.id == a.id then a else x) x).id = x.id := by
      intro x
      by_cases hid : x.id = a.id
      · simp [hid]
      · simp [hid]
    rw [List.pairwise_map]
    exact List.Pairwise.imp (fun hxy => by rw [hfid, hfid]; exact hxy) h
  · apply List.pairwise_append.mpr
    refine ⟨h, List.pairwise_singleton _ _, ?_⟩
    intro x hx y hy
    rw [List.mem_singleton.mp hy]
    intro hxa
    rw [List.any_eq_true] at hany
    exact hany ⟨x, hx, by simp [hxa]⟩

/-- Putting a record leaves it in the store. -/
theorem self_mem_dbPutAnswer (store : List Answer) (a : Answer) :
    a ∈ dbPutAnswer store a := by
  unfold dbPutAnswer
  split_ifs with hany
  · rcases List.any_eq_true.mp hany with ⟨x, hx, hxa⟩
    exact List.mem_map.mpr ⟨x, hx, by simp [hxa]⟩
  · exact List.mem_append.mpr (Or.inr (List.mem_singleton.mpr rfl))

/-- A stored record survives a `dbPut` of a record that is either under a
different key or identical. -/
theorem mem_dbPutAnswer_of_mem (store : List Answer) (a b : Answer)
    (hmem : a ∈ store) (hid : b.id = a.id → b = a) :
    a ∈ dbPutAnswer store b := by
  unfold dbPutAnswer
  split_ifs with hany
  · by_cases hba : a.id = b.id
    · have hb : b = a := hid hba.symm
      refine List.mem_map.mpr ⟨a, hmem, ?_⟩
      rw [if_pos (show (a.id == b.id) = true by simpa using hba)]
      exact hb
    · refine List.mem_map.mpr ⟨a, hmem, ?_⟩
      have hne : ¬ (a.id == b.id) = true := by simpa using hba
      simp [hne]
  · exact List.mem_append.mpr (Or.inl hmem)

/-- `dbPut` of an already-present record is the identity on a
duplicate-free store. -/
theorem dbPutAnswer_mem_eq (store : List Answer) (a : Answer)
    (h : store.Pairwise (fun x y => x.id ≠ y.id)) (hmem : a ∈ store) :
    dbPutAnswer store a = store := by
  unfold dbPutAnswer
  rw [if_pos (List.any_eq_true.mpr ⟨a, hmem, by simp⟩)]
  have hcongr : ∀ x ∈ store, (if x.id == a.id then a else x) = x := by
    intro x hx
    by_cases hid : x.id = a.id
    · rw [if_pos (by simpa using hid)]
      exact (eq_of_mem_pairwise_id store h a x hmem hx hid).symm
    · rw [if_neg (by simpa using hid)]
  rw [List.map_congr_left hcongr]
  simp

/-- Folding `dbPut` over logs whose records are all already stored leaves a
duplicate-free store unchanged. -/
theorem foldl_dbPutAnswer_eq :
    ∀ (gs : List Log) (store : List Answer),
      store.Pairwise (fun x y => x.id ≠ y.id) →
      (∀ g ∈ gs, answerFromLog g ∈ store) →
      gs.foldl (fun s log => dbPutAnswer s (answerFromLog log)) store = store
  | [], _, _, _ => rfl
  | g :: gs, store, h, hmem => by
    simp only [List.foldl_cons]
    rw [dbPutAnswer_mem_eq store (answerFromLog g) h (hmem g (by simp))]
    exact foldl_dbPutAnswer_eq gs store h (fun g2 hg2 => hmem g2 (by simp [hg2]))

/-- A stored record survives a fold of `dbPut`s whose records collide with it
only if identical. -/
theorem mem_foldl_dbPutAnswer (a : Answer) :
    ∀ (gs : List Log) (store : List Answer), a ∈ store →
      (∀ g ∈ gs, (answerFromLog g).id = a.id → answerFromLog g = a) →
      a ∈ gs.foldl (fun s log => dbPutAnswer s (answerFromLog log)) store
  | [], _, hmem, _ => hmem
  | g :: gs, store, hmem, hinj => by
    simp only [List.foldl_cons]
    refine mem_foldl_dbPutAnswer a gs _ ?_ (fun g2 hg2 => hinj g2 (by simp [hg2]))
    exact mem_dbPutAnswer_of_mem store a (answerFromLog g) hmem (hinj g (by simp))

/-- After folding `dbPut` over a log list whose derived keys identify the
records, every log's record is in the store. -/
theorem all_mem_foldl_dbPutAnswer :
    ∀ (gs : List Log) (store : List Answer),
      (∀ g ∈ gs, ∀ g2 ∈ gs, (answerFromLog g).id = (answerFromLog g2).id →
        answerFromLog g = answerFromLog g2) →
      ∀ g ∈ gs, answerFromLog g ∈
        gs.foldl (fun s log => dbPutAnswer s (answerFromLog log)) store
  | [], _, _ => by intro g hg; cases hg
  | g0 :: gs, store, hinj => by
    intro g hg
    simp only [List.foldl_cons]
    rcases List.mem_cons.mp hg with rfl | hg2
    · apply mem_foldl_dbPutAnswer
      · exact self_mem_dbPutAnswer store (answerFromLog g)
      · intro g2 hg2 hid
        exact hinj g2 (by simp [hg2]) g (by simp) hid
    · exact all_mem_foldl_dbPutAnswer gs (dbPutAnswer store (answerFromLog g0))
        (fun x hx y hy hid => hinj x (by simp [hx]) y (by simp [hy]) hid) g hg2

/-- Folding `dbPut` preserves key-duplicate-freedom. -/
theorem foldl_dbPutAnswer_pairwise :
    ∀ (gs : List Log) (store : List Answer),
      store.Pairwise (fun x y => x.id ≠ y.id) →
      (gs.foldl (fun s log => dbPutAnswer s (answerFromLog log)) store).Pairwise
        (fun x y => x.id ≠ y.id)
  | [], _, h => h
  | g :: gs, store, h =>
    foldl_dbPutAnswer_pairwise gs _ (dbPutAnswer_pairwise store (answerFromLog g) h)

/-- C5: against an exact provider whose composite keys identify the answer
records, a first indexing of `[fromBlock, toBlock]` from a fresh store yields
a duplicate-free `answers` store, and re-indexing any sub-range afterwards
(hence any overlapping range, any number of times) returns the store
bit-identical — no duplicates, no edits, no reordering. -/
theorem indexAnswersInRange_reindex_stable (p : Provider) (L : List Log)
    (hs : sortedByBlock L) (hL : exactProvider p.getLogs L)
    (hinj : ∀ g ∈ L, ∀ g2 ∈ L, (answerFromLog g).id = (answerFromLog g2).id →
      answerFromLog g = answerFromLog g2)
    (st0 : DbState) (h0 : st0.answers = [])
    (fromBlock toBlock fromBlock2 toBlock2 : Nat)
    (hf : fromBlock ≤ fromBlock2) (ht : toBlock2 ≤ toBlock) :
    ((indexAnswersInRange p
        (indexAnswersInRange p st0 fromBlock toBlock).1 fromBlock2 toBlock2).1.answers =
      (indexAnswersInRange p st0 fromBlock toBlock).1.answers) ∧
    (indexAnswersInRange p st0 fromBlock toBlock).1.answers.Pairwise
      (fun x y => x.id ≠ y.id) := by
  by_cases hrange : toBlock < fromBlock
  · have hrange2 : toBlock2 < fromBlock2 := by omega
    constructor
    · simp only [indexAnswersInRange, if_pos hrange, if_pos hrange2]
    · simp only [indexAnswersInRange, if_pos hrange, h0]
      exact List.Pairwise.nil
  · have hchunk := getLogsChunked_exact p.getLogs L hL hs fromBlock toBlock
    have hanswers1 : (indexAnswersInRange p st0 fromBlock toBlock).1.answers =
        (L.filter (inRange fromBlock toBlock)).foldl
          (fun s log => dbPutAnswer s (answerFromLog log)) [] := by
      simp only [indexAnswersInRange, if_neg hrange, hchunk, h0]
    have hinj1 : ∀ g ∈ L.filter (inRange fromBlock toBlock),
        ∀ g2 ∈ L.filter (inRange fromBlock toBlock),
        (answerFromLog g).id = (answerFromLog g2).id →
        answerFromLog g = answerFromLog g2 := by
      intro g hg g2 hg2 hid
      exact hinj g (List.mem_filter.mp hg).1 g2 (List.mem_filter.mp hg2).1 hid
    have hpw : (indexAnswersInRange p st0 fromBlock toBlock).1.answers.Pairwise
        (fun x y => x.id ≠ y.id) := by
      rw [hanswers1]
      exact foldl_dbPutAnswer_pairwise _ [] List.Pairwise.nil
    refine ⟨?_, hpw⟩
    by_cases hrange2 : toBlock2 < fromBlock2
    · simp only [indexAnswersInRange, if_pos hrange2]
    · have hchunk2 := getLogsChunked_exact p.getLogs L hL hs fromBlock2 toBlock2
      have hmem2 : ∀ g ∈ L.filter (inRange fromBlock2 toBlock2),
          answerFromLog g ∈ (indexAnswersInRange p st0 fromBlock toBlock).1.answers := by
        intro g hg
        have hgL := (List.mem_filter.mp hg).1
        have hgr := (List.mem_filter.mp hg).2
        have hgr1 : inRange fromBlock toBlock g = true := by
          simp only [inRange, Bool.and_eq_true, decide_eq_true_eq] at hgr ⊢
          omega
        rw [hanswers1]
        exact all_mem_foldl_dbPutAnswer (L.filter (inRange fromBlock toBlock)) [] hinj1 g
          (List.mem_filter.mpr ⟨hgL, hgr1⟩)
      conv_lhs =>
        rw [indexAnswersInRange]
      rw [if_neg hrange2, hchunk2]
      simp only
      rw [foldl_dbPutAnswer_eq (L.filter (inRange fromBlock2 toBlock2))
        (indexAnswersInRange p st0 fromBlock toBlock).1.answers hpw hmem2]

/-- C5 witness: indexing `[0, 10000]` of the two-log chain from a fresh
store, then re-indexing the overlapping `[0, 6000]`, leaves the `answers`
store unchanged. -/
theorem indexAnswersInRange_reindex_stable_witness :
    (indexAnswersInRange wProvider
        (indexAnswersInRange wProvider emptyDbState 0 10000).1 0 6000).1.answers =
      (indexAnswersInRange wProvider emptyDbState 0 10000).1.answers :=
  (indexAnswersInRange_reindex_stable wProvider wChainLogs
    (by unfold sortedByBlock; decide) (fun _ _ => rfl) (by decide) emptyDbState rfl
    0 10000 0 6000 (by decide) (by decide)).1

/-- The proposal-decoding fold touches only the `proposals` store, never the
watermark settings. -/
theorem scanStep_foldl_watermark (p : Provider) :
    ∀ (logs : List Log) (acc : DbState × List Proposal),
      ((logs.foldl (fun acc log =>
          match p.decodeProposal log with
          | none => acc
          | some prop =>
            ({ acc.1 with proposals := dbPutProposal acc.1.proposals prop }, acc.2 ++ [prop]))
        acc).1.earliestIndexedBlock = acc.1.earliestIndexedBlock ∧
       (logs.foldl (fun acc log =>
          match p.decodeProposal log with
          | none => acc
          | some prop =>
            ({ acc.1 with proposals := dbPutProposal acc.1.proposals prop }, acc.2 ++ [prop]))
        acc).1.lastProcessedBlock = acc.1.lastProcessedBlock)
  | [], _ => ⟨rfl, rfl⟩
  | log :: logs, acc => by
    simp only [List.foldl_cons]
    cases hdec : p.decodeProposal log with
    | none =>
      simp only [hdec]
      exact scanStep_foldl_watermark p logs acc
    | some prop =>
      simp only [hdec]
      exact scanStep_foldl_watermark p logs _

/-- `scanProposalsInRange` never writes the watermark settings. -/
theorem scanProposalsInRange_watermark (p : Provider) (st : DbState)
    (fromBlock toBlock : Nat) :
    (scanProposalsInRange p st fromBlock toBlock).1.earliestIndexedBlock =
      st.earliestIndexedBlock ∧
    (scanProposalsInRange p st fromBlock toBlock).1.lastProcessedBlock =
      st.lastProcessedBlock := by
  unfold scanProposalsInRange
  split_ifs
  · exact ⟨rfl, rfl⟩
  · cases hres : getLogsChunked p.getLogs fromBlock toBlock with
    | error e => exact ⟨rfl, rfl⟩
    | ok logs => exact scanStep_foldl_watermark p logs (st, [])

/-- `indexAnswersInRange` never writes the watermark settings. -/
theorem indexAnswersInRange_watermark (p : Provider) (st : DbState)
    (fromBlock toBlock : Nat) :
    (indexAnswersInRange p st fromBlock toBlock).1.earliestIndexedBlock =
      st.earliestIndexedBlock ∧
    (indexAnswersInRange p st fromBlock toBlock).1.lastProcessedBlock =
      st.lastProcessedBlock := by
  unfold indexAnswersInRange
  split_ifs
  · exact ⟨rfl, rfl⟩
  · cases hres : getLogsChunked p.getLogs fromBlock toBlock with
    | error e => exact ⟨rfl, rfl⟩
    | ok logs => exact ⟨rfl, rfl⟩

/-- C6: when a sync phase fails (any propagating error before the watermark
update), both `backfillProposalsRange` and `fetchNewProposals` leave
`earliestIndexedBlock` and `lastProcessedBlock` exactly as before the phase:
the watermark update runs only after the proposal scan and the answer
indexing of the full range both succeeded. -/
theorem watermark_unchanged_on_error (p : Provider) (st : DbState)
    (fromBlock toBlock : Nat) :
    (∀ msg, (backfillProposalsRange p st fromBlock toBlock).2 = .error msg →
      (backfillProposalsRange p st fromBlock toBlock).1.earliestIndexedBlock =
        st.earliestIndexedBlock ∧
      (backfillProposalsRange p st fromBlock toBlock).1.lastProcessedBlock =
        st.lastProcessedBlock) ∧
    (∀ msg, (fetchNewProposals p st).2 = .error msg →
      (fetchNewProposals p st).1.earliestIndexedBlock = st.earliestIndexedBlock ∧
      (fetchNewProposals p st).1.lastProcessedBlock = st.lastProcessedBlock) := by
  constructor
  · intro msg
    unfold backfillProposalsRange
    split_ifs with hlt
    · intro herr
      simp at herr
    · have hsw := scanProposalsInRange_watermark p st fromBlock toBlock
      cases hscan : scanProposalsInRange p st fromBlock toBlock with
      | mk st1 r1 =>
        rw [hscan] at hsw
        cases r1 with
        | error e =>
          intro _
          exact hsw
        | ok proposals =>
          dsimp only
          have hiw := indexAnswersInRange_watermark p st1 fromBlock toBlock
          cases hidx : indexAnswersInRange p st1 fromBlock toBlock with
          | mk st2 r2 =>
            rw [hidx] at hiw
            cases r2 with
            | error e =>
              intro _
              exact ⟨hiw.1.trans hsw.1, hiw.2.trans hsw.2⟩
            | ok n =>
              intro herr
              simp at herr
  · intro msg
    unfold fetchNewProposals
    cases hbn : p.getBlockNumber with
    | error e =>
      intro _
      exact ⟨rfl, rfl⟩
    | ok latestBlock =>
      dsimp only
      split_ifs with hle
      · intro herr
        simp at herr
      · have hsw := scanProposalsInRange_watermark p st
          (st.lastProcessedBlock.getD 0 + 1) latestBlock
        cases hscan : scanProposalsInRange p st
            (st.lastProcessedBlock.getD 0 + 1) latestBlock with
        | mk st1 r1 =>
          rw [hscan] at hsw
          cases r1 with
          | error e =>
            intro _
            exact hsw
          | ok newProposals =>
            dsimp only
            have hiw := indexAnswersInRange_watermark p st1
              (st.lastProcessedBlock.getD 0 + 1) latestBlock
            cases hidx : indexAnswersInRange p st1
                (st.lastProcessedBlock.getD 0 + 1) latestBlock with
            | mk st2 r2 =>
              rw [hidx] at hiw
              cases r2 with
              | error e =>
                intro _
                exact ⟨hiw.1.trans hsw.1, hiw.2.trans hsw.2⟩
              | ok n =>
                intro herr
                simp at herr

/-- C6 witness: with a provider whose log fetches always fail, both phases
report the error and leave the watermark `(50, 70)` untouched. -/
theorem watermark_unchanged_on_error_witness :
    ((backfillProposalsRange failProvider wDbState 1 10).1.earliestIndexedBlock =
        wDbState.earliestIndexedBlock ∧
      (backfillProposalsRange failProvider wDbState 1 10).1.lastProcessedBlock =
        wDbState.lastProcessedBlock) ∧
    ((fetchNewProposals failProvider wDbState).1.earliestIndexedBlock =
        wDbState.earliestIndexedBlock ∧
      (fetchNewProposals failProvider wDbState).1.lastProcessedBlock =
        wDbState.lastProcessedBlock) :=
  ⟨(watermark_unchanged_on_error failProvider wDbState 1 10).1 "RPC exhausted" rfl
  , (watermark_unchanged_on_error failProvider wDbState 1 10).2 "RPC exhausted" rfl⟩

/-- Invariant of the bounded binary search: from `lo ≤ hi` with a span below
`2 ^ fuel`, every lookup in `[lo, hi]` succeeding, globally monotone
timestamps, and the upper end reaching the target, `searchLoop` returns the
least block of `[lo, hi]` whose timestamp reaches the target. -/
theorem searchLoop_correct (getBlock : Nat → Option Nat) (target : Int)
    (hmono : ∀ i j ti tj, i ≤ j → getBlock i = some ti → getBlock j = some tj →
      ti ≤ tj) :
    ∀ (fuel lo hi : Nat), lo ≤ hi → hi - lo < 2 ^ fuel →
      (∀ b, lo ≤ b → b ≤ hi → (getBlock b).isSome = true) →
      (∀ th, getBlock hi = some th → target ≤ (th : Int)) →
      (lo ≤ searchLoop getBlock target fuel lo hi ∧
       searchLoop getBlock target fuel lo hi ≤ hi ∧
       (∀ tr, getBlock (searchLoop getBlock target fuel lo hi) = some tr →
         target ≤ (tr : Int)) ∧
       (∀ b tb, lo ≤ b → b < searchLoop getBlock target fuel lo hi →
         getBlock b = some tb → (tb : Int) < target)) := by
  intro fuel
  induction fuel with
  | zero =>
    intro lo hi hlohi hfuel htotal hhi
    have heq : lo = hi := by
      have : (2 : Nat) ^ 0 = 1 := pow_zero 2
      omega
    simp only [searchLoop]
    refine ⟨Nat.le_refl lo, by omega, ?_, ?_⟩
    · intro tr htr
      apply hhi
      rw [← heq]
      exact htr
    · intro b tb hlb hblt
      omega
  | succ fuel ih =>
    intro lo hi hlohi hfuel htotal hhi
    rw [searchLoop]
    by_cases hbreak : hi ≤ lo
    · rw [if_pos hbreak]
      have heq : lo = hi := by omega
      refine ⟨Nat.le_refl lo, by omega, ?_, ?_⟩
      · intro tr htr
        apply hhi
        rw [← heq]
        exact htr
      · intro b tb hlb hblt
        omega
    · rw [if_neg hbreak]
      have hpow : (2 : Nat) ^ (fuel + 1) = 2 ^ fuel * 2 := pow_succ 2 fuel
      have hmidlo : lo ≤ (lo + hi) / 2 := by omega
      have hmidhi : (lo + hi) / 2 < hi := by omega
      have hmid_some := htotal ((lo + hi) / 2) hmidlo (by omega)
      cases hblk : getBlock ((lo + hi) / 2) with
      | none =>
        rw [hblk] at hmid_some
        cases hmid_some
      | some blockTs =>
        simp only [hblk]
        split_ifs with hts
        · -- timestamp below target: narrow to [mid + 1, hi]
          have hrec := ih ((lo + hi) / 2 + 1) hi (by omega) (by omega)
            (fun b hb1 hb2 => htotal b (by omega) hb2) hhi
          refine ⟨by omega, hrec.2.1, hrec.2.2.1, ?_⟩
          · intro b tb hlb hblt hb
            by_cases hbmid : b ≤ (lo + hi) / 2
            · have hle := hmono b ((lo + hi) / 2) tb blockTs hbmid hb hblk
              have : (tb : Int) ≤ (blockTs : Int) := by exact_mod_cast hle
              omega
            · exact hrec.2.2.2 b tb (by omega) hblt hb
        · -- timestamp reaches target: narrow to [lo, mid]
          have hrec := ih lo ((lo + hi) / 2) (by omega) (by omega)
            (fun b hb1 hb2 => htotal b hb1 (by omega))
            (fun th hth => by
              rw [hblk] at hth
              cases hth
              omega)
          exact ⟨hrec.1, by omega, hrec.2.2.1, hrec.2.2.2⟩

/-- C8 (amended): for a chain with monotone timestamps, with every block
lookup in the initial search window `[startLo, latestNumber]` succeeding and
the window spanning fewer than `2 ^ 15` blocks (so the fixed 15-iteration
search converges), `estimateBlockFromTime` returns the lowest block of the
window whose timestamp is at least the target `latestTs - secondsAgo`; and a
null block lookup narrows the search to `[mid + 1, hi]` instead of failing
the call. -/
theorem estimateBlockFromTime_correct (getBlock : Nat → Option Nat)
    (latestNumber latestTs secondsAgo : Nat)
    (hmono : ∀ i j ti tj, i ≤ j → getBlock i = some ti → getBlock j = some tj →
      ti ≤ tj)
    (htotal : ∀ b, estStartLo latestNumber secondsAgo ≤ b → b ≤ latestNumber →
      (getBlock b).isSome = true)
    (hlatest : getBlock latestNumber = some latestTs)
    (hspan : latestNumber - estStartLo latestNumber secondsAgo < 2 ^ 15) :
    (estStartLo latestNumber secondsAgo ≤
        estimateBlockFromTime getBlock latestNumber latestTs secondsAgo ∧
      estimateBlockFromTime getBlock latestNumber latestTs secondsAgo ≤ latestNumber) ∧
    (∀ tr, getBlock (estimateBlockFromTime getBlock latestNumber latestTs secondsAgo) =
        some tr → estTargetTs latestTs secondsAgo ≤ (tr : Int)) ∧
    (∀ b tb, estStartLo latestNumber secondsAgo ≤ b →
      b < estimateBlockFromTime getBlock latestNumber latestTs secondsAgo →
      getBlock b = some tb → (tb : Int) < estTargetTs latestTs secondsAgo) ∧
    (∀ fuel lo hi, lo < hi → getBlock ((lo + hi) / 2) = none →
      searchLoop getBlock (estTargetTs latestTs secondsAgo) (fuel + 1) lo hi =
        searchLoop getBlock (estTargetTs latestTs secondsAgo) fuel ((lo + hi) / 2 + 1) hi) := by
  have hstart : estStartLo latestNumber secondsAgo ≤ latestNumber := by
    unfold estStartLo
    omega
  have hhi : ∀ th, getBlock latestNumber = some th →
      estTargetTs latestTs secondsAgo ≤ (th : Int) := by
    intro th hth
    rw [hlatest] at hth
    cases hth
    unfold estTargetTs
    omega
  have hrun := searchLoop_correct getBlock (estTargetTs latestTs secondsAgo) hmono 15
    (estStartLo latestNumber secondsAgo) latestNumber hstart hspan htotal hhi
  refine ⟨⟨hrun.1, hrun.2.1⟩, hrun.2.2.1, hrun.2.2.2, ?_⟩
  intro fuel lo hi hlt hnull
  rw [searchLoop, if_neg (by omega)]
  simp only [hnull]

/-- C8 amended-theorem witness: on the 12-second chain with head block 1000
(timestamp 12000) and a one-day lookback, the estimator's result stays inside
the initial window `[0, 1000]`. -/
theorem estimateBlockFromTime_correct_witness :
    estStartLo 1000 86400 ≤ estimateBlockFromTime wGetBlock 1000 12000 86400 ∧
    estimateBlockFromTime wGetBlock 1000 12000 86400 ≤ 1000 :=
  (estimateBlockFromTime_correct wGetBlock 1000 12000 86400
    (fun i j ti tj hij hi hj => by
      simp only [wGetBlock, Option.some.injEq] at hi hj
      omega)
    (fun b hb1 hb2 => rfl) rfl (by decide)).1

/-- C8 counterexample: a monotone chain (block `i` has timestamp `i` below
block 65536, the head block 65536 has timestamp 500000) with
`secondsAgo = 393216`, so the initial window is `[0, 65536]` — 65537 blocks,
too wide for 15 halvings. Only block 65536 reaches the target timestamp
106784, yet the search returns 65535, whose timestamp 65535 lies below the
target: the claim "returns the lowest block whose timestamp is ≥ target,
converging within the 15-iteration bound" fails as stated. -/
theorem estimateBlockFromTime_counterexample :
    (∀ i j ti tj, i ≤ j → cexGetBlock i = some ti → cexGetBlock j = some tj →
      ti ≤ tj) ∧
    estStartLo 65536 393216 = 0 ∧
    cexGetBlock 65536 = some 500000 ∧
    estTargetTs 500000 393216 ≤ ((500000 : Nat) : Int) ∧
    estimateBlockFromTime cexGetBlock 65536 500000 393216 = 65535 ∧
    cexGetBlock 65535 = some 65535 ∧
    (((65535 : Nat) : Int) < estTargetTs 500000 393216) := by
  refine ⟨?_, by decide, rfl, by decide, ?_, rfl, by decide⟩
  · intro i j ti tj hij hi hj
    simp only [cexGetBlock, Option.some.injEq] at hi hj
    split_ifs at hi hj <;> omega
  · decide
